import Mathlib

/-!
Verification of the multi-account management core of Antigravity-Manager.

The definitions below are a shallow embedding of the Rust sources
`src-tauri/src/modules/account.rs` and `src-tauri/src/constants.rs`.
Filesystem access, collaborator HTTP calls and JSON (de)serialization are
modelled as explicit parameters; machine integers (`i64`, `i32`) are `Int`,
`u32` is `Nat` with an explicit bound check where the source can overflow.
The record types of `models.rs` (not part of the provided sources) are
modelled from the specification's data-model section.
-/

/-- Modelled from the spec: `TokenData` of `models.rs` (absent from the
provided sources) — access token, refresh token, expiry, optional email,
project id and session id.  Field order follows `TokenData::new` call sites. -/
structure TokenData where
  access_token : String
  refresh_token : String
  expires_in : Int
  email : Option String
  project_id : Option String
  session_id : Option String
deriving DecidableEq

/-- Modelled from the spec: `TokenData::new` constructor, argument order as
used at the `fetch_quota_with_retry` call site. -/
def TokenData.new (access refresh : String) (expires : Int)
    (email project session : Option String) : TokenData :=
  ⟨access, refresh, expires, email, project, session⟩

/-- Modelled from the spec: one `{model-name, integer-percentage-remaining}`
pair of `QuotaData`.  `percentage` is an `i32` in the source. -/
structure ModelQuota where
  name : String
  percentage : Int
deriving DecidableEq

/-- Modelled from the spec: `QuotaData` of `models.rs` — model list,
last-updated stamp, subscription tier, forbidden flag and reason, and the
forwarding-rules mapping (modelled as an association list). -/
structure QuotaData where
  models : List ModelQuota
  last_updated : Int
  subscription_tier : Option String
  is_forbidden : Bool
  forbidden_reason : Option String
  model_forwarding_rules : List (String × String)
deriving DecidableEq

/-- Modelled from the spec: `QuotaData::new()` — an empty quota, not
forbidden. -/
def QuotaData.new : QuotaData :=
  ⟨[], 0, none, false, none, []⟩

/-- Modelled from the spec: one device-profile history entry
`{version-id, created-at, label, profile, is-current}`; the profile blob is
opaque and modelled as a string. -/
structure DeviceProfileVersion where
  id : String
  created_at : Int
  label : String
  profile : String
  is_current : Bool
deriving DecidableEq

/-- Modelled from the spec: the full `Account` record of `models.rs`
(detail-file contents) as described in the data-model section. -/
structure Account where
  id : String
  email : String
  name : Option String
  token : TokenData
  disabled : Bool
  disabled_reason : Option String
  disabled_at : Option Int
  proxy_disabled : Bool
  proxy_disabled_reason : Option String
  proxy_disabled_at : Option Int
  quota : Option QuotaData
  protected_models : Finset String
  device_profile : Option String
  device_history : List DeviceProfileVersion
  created_at : Int
  last_used : Int
deriving DecidableEq

/-- Modelled from the spec: `Account::new(id, email, token)` — a fresh
account with cleared flags and empty quota/protection/device state; `now`
stands for the wall-clock timestamp the constructor reads. -/
def Account.new (id email : String) (token : TokenData) (now : Int) : Account where
  id := id
  email := email
  name := none
  token := token
  disabled := false
  disabled_reason := none
  disabled_at := none
  proxy_disabled := false
  proxy_disabled_reason := none
  proxy_disabled_at := none
  quota := none
  protected_models := ∅
  device_profile := none
  device_history := []
  created_at := now
  last_used := now

/-- Modelled from the spec: `Account::update_last_used` bumps the last-used
timestamp to the current time `now`. -/
def Account.update_last_used (a : Account) (now : Int) : Account :=
  { a with last_used := now }

/-- Summary projection of an account kept in the index file
(`AccountSummary` of `models.rs`, fields as pushed by `add_account` and
`rebuild_index_from_accounts_in_dir`). -/
structure AccountSummary where
  id : String
  email : String
  name : Option String
  disabled : Bool
  proxy_disabled : Bool
  protected_models : Finset String
  created_at : Int
  last_used : Int
deriving DecidableEq

/-- The index file payload: schema version, ordered summaries, and the
current-account pointer. -/
structure AccountIndex where
  version : String
  accounts : List AccountSummary
  current_account_id : Option String
deriving DecidableEq

/-- The summary projection used by `add_account`, `upsert_account` and
`rebuild_index_from_accounts_in_dir` when pushing an account into the
index. -/
def Account.toSummary (a : Account) : AccountSummary where
  id := a.id
  email := a.email
  name := a.name
  disabled := a.disabled
  proxy_disabled := a.proxy_disabled
  protected_models := a.protected_models
  created_at := a.created_at
  last_used := a.last_used

/-! ### Version resolution (`constants.rs`) -/

/-- Embeds `KNOWN_STABLE_VERSION` — the hard-coded floor version. -/
def KNOWN_STABLE_VERSION : String := "4.1.26"

/-- Embeds `KNOWN_STABLE_ELECTRON`. -/
def KNOWN_STABLE_ELECTRON : String := "39.2.3"

/-- Embeds `KNOWN_STABLE_CHROME`. -/
def KNOWN_STABLE_CHROME : String := "132.0.6834.160"

/-- Split a character list at every occurrence of `sep`; mirrors Rust
`str::split(sep)` (so the empty string yields one empty segment). -/
def splitOnChar (sep : Char) : List Char → List (List Char)
  | [] => [[]]
  | c :: cs =>
    match splitOnChar sep cs with
    | [] => [[c]]
    | g :: gs => if c = sep then [] :: g :: gs else (c :: g) :: gs

/-- ASCII digit test, as in Rust `u32::from_str`. -/
def isAsciiDigit (c : Char) : Bool := 48 ≤ c.toNat && c.toNat ≤ 57

/-- Rust `s.parse::<u32>()`: an optional leading plus sign, then one or more
ASCII digits, rejecting values that overflow `u32`. -/
def parse_u32 (s : List Char) : Option Nat :=
  let t := match s with
    | '+' :: rest => rest
    | other => other
  if t.isEmpty then none
  else if t.all isAsciiDigit then
    let n := t.foldl (fun acc c => acc * 10 + (c.toNat - 48)) 0
    if n < 2 ^ 32 then some n else none
  else none

/-- The component parse of `compare_semver`:
`v.split('.').filter_map(|s| s.parse().ok())`. -/
def version_parts (v : String) : List Nat :=
  (splitOnChar '.' v.data).filterMap parse_u32

/-- Rust `a.cmp(&b)` on `u32`. -/
def cmpNat (a b : Nat) : Ordering :=
  if a < b then .lt else if a = b then .eq else .gt

/-- Tail of the `compare_semver` loop once the left list is exhausted:
remaining left components are taken as `0`. -/
def cmp_tail_left : List Nat → Ordering
  | [] => .eq
  | b :: bs =>
    match cmpNat 0 b with
    | .eq => cmp_tail_left bs
    | o => o

/-- Tail of the `compare_semver` loop once the right list is exhausted:
remaining right components are taken as `0`. -/
def cmp_tail_right : List Nat → Ordering
  | [] => .eq
  | a :: as_ =>
    match cmpNat a 0 with
    | .eq => cmp_tail_right as_
    | o => o

/-- The index loop of `compare_semver`: compare components left-to-right,
treating a missing component as `0`; the first strict comparison wins. -/
def cmp_parts : List Nat → List Nat → Ordering
  | [], bs => cmp_tail_left bs
  | a :: as_, [] => cmp_tail_right (a :: as_)
  | a :: as_, b :: bs =>
    match cmpNat a b with
    | .eq => cmp_parts as_ bs
    | o => o

/-- Embeds `compare_semver(v1, v2)` from `constants.rs`: parse decimal components
and compare numerically left-to-right, missing components as zero. -/
def compare_semver (v1 v2 : String) : Ordering :=
  cmp_parts (version_parts v1) (version_parts v2)

/-- Embeds `VersionSource` from `constants.rs`. -/
inductive VersionSource where
  | localInstallation
  | knownStableFallback
  | remoteAPI
  | changelogWeb
  | cargoToml
deriving DecidableEq

/-- Embeds `VersionConfig` from `constants.rs`. -/
structure VersionConfig where
  version : String
  electron : String
  chrome : String
deriving DecidableEq

/-- One guarded upgrade step of `resolve_version_config`: when a candidate
version is available and compares strictly greater than the current best
(`compare_semver(..) > Ordering::Equal`), adopt it together with its
source tag; otherwise keep the current best. -/
def consider_candidate (cand : Option String) (src : VersionSource)
    (best : String × VersionSource) : String × VersionSource :=
  match cand with
  | some v => if compare_semver v best.1 = .gt then (v, src) else best
  | none => best

/-- Embeds `resolve_version_config` from `constants.rs`.  The locally installed
version (already put through `parse_version`) and the remote fetch result
are external inputs and appear as `Option` parameters; the resolution
itself is the source's two guarded upgrades over the hard-coded floor. -/
def resolve_version_config (localv remote : Option String) :
    VersionConfig × VersionSource :=
  let step1 := consider_candidate localv .localInstallation
    (KNOWN_STABLE_VERSION, .knownStableFallback)
  let step2 := consider_candidate remote .remoteAPI step1
  (⟨step2.1, KNOWN_STABLE_ELECTRON, KNOWN_STABLE_CHROME⟩, step2.2)

/-! ### Order lemmas for `compare_semver` -/

/-! ### Byte-lexicographic string order (Rust `Ord` on `String`) -/

/-- Rust's `String` ordering is lexicographic on UTF-8 bytes; since UTF-8
byte ordering coincides with code-point ordering, it is modelled as the
strict lexicographic order on the character lists. -/
def strLtB : List Char → List Char → Bool
  | [], [] => false
  | [], _ :: _ => true
  | _ :: _, [] => false
  | a :: as_, b :: bs =>
    if a.toNat < b.toNat then true
    else if a.toNat = b.toNat then strLtB as_ bs else false

/-! ### Index rebuild and recovery (`account.rs`) -/

/-- The comparator of `rebuild_index_from_accounts_in_dir`: summary `a` may
precede summary `b` when
`b.last_used.cmp(&a.last_used).then_with(|| a.email.cmp(&b.email))` is not
`Greater` — `last_used` descending with `email` ascending as tie-break. -/
def summary_le (a b : AccountSummary) : Bool :=
  decide (b.last_used < a.last_used) ||
    (decide (b.last_used = a.last_used) && !(strLtB b.email.data a.email.data))

/-- Propositional form of `summary_le`, for use with `List.insertionSort`. -/
def SummaryLE (a b : AccountSummary) : Prop := summary_le a b = true

instance : DecidableRel SummaryLE :=
  fun a b => inferInstanceAs (Decidable (summary_le a b = true))

/-- Byte-level part of `sanitize_index_content`: strip one UTF-8 BOM prefix
(`EF BB BF`), then any run of leading NUL bytes.  The source finally decodes
the remainder with `String::from_utf8_lossy`; that decoding step is kept as
an explicit `decode` parameter of the load pipeline. -/
def sanitize_index_content (raw : List Nat) : List Nat :=
  let without_bom :=
    if raw.take 3 = [0xEF, 0xBB, 0xBF] then raw.drop 3 else raw
  without_bom.dropWhile (fun b => b == 0x00)

/-- The Unicode White_Space code points — exactly the characters trimmed by
Rust `str::trim` (via `char::is_whitespace`). -/
def isRustWhitespace (c : Char) : Bool :=
  (0x09 ≤ c.toNat && c.toNat ≤ 0x0D) || c.toNat == 0x20 || c.toNat == 0x85 ||
    c.toNat == 0xA0 || c.toNat == 0x1680 ||
    (0x2000 ≤ c.toNat && c.toNat ≤ 0x200A) || c.toNat == 0x2028 ||
    c.toNat == 0x2029 || c.toNat == 0x202F || c.toNat == 0x205F ||
    c.toNat == 0x3000

/-- Rust `s.trim().is_empty()`: every character is whitespace. -/
def trimmed_is_empty (s : String) : Bool := s.data.all isRustWhitespace

/-- Embeds `rebuild_index_from_accounts_in_dir`.  The directory scan is modelled as
the list of load results of the `*.json` detail files in enumeration order
(`none` is a file whose load failed; it is skipped with a warning).  The
accounts that load are projected to summaries and sorted by `last_used`
descending with `email` ascending; `current_account_id` is the first
summary's id, or none.  Rust's `sort_by` is a stable sort, and every stable
sort under a total preorder yields the same list, so it is modelled by
insertion sort. -/
def rebuild_index_from_accounts_in_dir (details : List (Option Account)) :
    AccountIndex :=
  let summaries := (details.filterMap id).map Account.toSummary
  let sorted := List.insertionSort SummaryLE summaries
  { version := "2.0"
    accounts := sorted
    current_account_id := sorted.head?.map AccountSummary.id }

/-- The backup filename `accounts.json.corrupt-<unix-seconds>-<uuid>` built
by `try_save_recovered_index`. -/
def corrupt_backup_name (ts uuid : String) : String :=
  "accounts.json.corrupt-" ++ ts ++ "-" ++ uuid

/-- Result of one `load_account_index_in_dir` call: the returned index, the
backup file written for a corrupt original (name and contents), and whether
the recovered index was persisted (the non-blocking `try_lock` branch of
`try_save_recovered_index`). -/
structure LoadIndexResult where
  index : AccountIndex
  backup : Option (String × List Nat)
  saved_recovered : Bool
deriving DecidableEq

/-- Embeds `try_save_recovered_index`: back up the corrupt content (when given)
under `corrupt_backup_name`, then persist the recovered index only when the
account mutex can be acquired without blocking (`lock_free`). -/
def try_save_recovered_index (corrupt_content : Option (List Nat))
    (ts uuid : String) (lock_free : Bool) :
    Option (String × List Nat) × Bool :=
  (corrupt_content.map (fun c => (corrupt_backup_name ts uuid, c)), lock_free)

/-- Embeds `load_account_index_in_dir`.  External effects appear as parameters:
`decode` is `String::from_utf8_lossy`, `parse` is
`serde_json::from_str::<AccountIndex>`, `contents` the bytes of
`accounts.json` (`none` when the file is absent), `details` the detail
directory scan used by the rebuild, `lock_free` whether
`ACCOUNT_INDEX_LOCK.try_lock()` succeeds, and `ts`/`uuid` the timestamp and
fresh UUID used in the backup name. -/
def load_account_index_in_dir (decode : List Nat → String)
    (parse : String → Option AccountIndex) (contents : Option (List Nat))
    (details : List (Option Account)) (lock_free : Bool) (ts uuid : String) :
    LoadIndexResult :=
  match contents with
  | none =>
    let recovered := rebuild_index_from_accounts_in_dir details
    let saved := try_save_recovered_index none ts uuid lock_free
    { index := recovered, backup := saved.1, saved_recovered := saved.2 }
  | some raw =>
    if raw.isEmpty then
      let recovered := rebuild_index_from_accounts_in_dir details
      let saved := try_save_recovered_index none ts uuid lock_free
      { index := recovered, backup := saved.1, saved_recovered := saved.2 }
    else
      let sanitized := decode (sanitize_index_content raw)
      if trimmed_is_empty sanitized then
        let recovered := rebuild_index_from_accounts_in_dir details
        let saved := try_save_recovered_index none ts uuid lock_free
        { index := recovered, backup := saved.1, saved_recovered := saved.2 }
      else
        match parse sanitized with
        | some idx =>
          { index := idx, backup := none, saved_recovered := false }
        | none =>
          let recovered := rebuild_index_from_accounts_in_dir details
          let saved := try_save_recovered_index (some raw) ts uuid lock_free
          { index := recovered, backup := saved.1, saved_recovered := saved.2 }

/-- An explicit decoder agreeing with `String::from_utf8_lossy` on
ASCII-only byte lists, used to evaluate the pipeline on concrete inputs. -/
def decode_ascii (bs : List Nat) : String := ⟨bs.map Char.ofNat⟩

/-- A parser rejecting every input, consistent with `serde_json` on inputs
that are not valid JSON. -/
def no_parse : String → Option AccountIndex := fun _ => none

/-- Parser used by the C3 witness: accepts exactly the string decoded from
the witness bytes and returns the empty index. -/
def toy_parse (s : String) : Option AccountIndex :=
  if s = decode_ascii [111, 107] then some ⟨"2.0", [], none⟩ else none

/-! ### Account deletion (`account.rs`) -/

/-- Embeds `delete_account`: remove every summary with the given id (`retain`),
fail when nothing was removed, and when `current_account_id` pointed at the
deleted id move it to the first remaining summary (or clear it).  The
detail-file removal and the notifier signal do not touch the index and are
outside the model. -/
def delete_account (index : AccountIndex) (account_id : String) :
    Except String AccountIndex :=
  let retained := index.accounts.filter (fun s => decide (s.id ≠ account_id))
  if retained.length = index.accounts.length then
    .error ("Account ID not found: " ++ account_id)
  else
    .ok { index with
      accounts := retained
      current_account_id :=
        if index.current_account_id = some account_id then
          retained.head?.map AccountSummary.id
        else index.current_account_id }

/-- Loop body of `delete_accounts`: retain the other summaries and clear the
current pointer when it referenced the deleted id. -/
def delete_accounts_step (idx : AccountIndex) (account_id : String) :
    AccountIndex :=
  { idx with
    accounts := idx.accounts.filter (fun s => decide (s.id ≠ account_id))
    current_account_id :=
      if idx.current_account_id = some account_id then none
      else idx.current_account_id }

/-- Embeds `delete_accounts`: run the loop body once per id, then — when the
current pointer ended up empty — point it at the first remaining summary. -/
def delete_accounts (index : AccountIndex) (account_ids : List String) :
    AccountIndex :=
  let after := account_ids.foldl delete_accounts_step index
  if after.current_account_id = none then
    { after with
      current_account_id := after.accounts.head?.map AccountSummary.id }
  else after

/-- A concrete summary used to evaluate the index operations. -/
def sampleSummary (i e : String) (lu : Int) : AccountSummary :=
  ⟨i, e, none, false, false, ∅, 0, lu⟩

/-! ### Reorder (`account.rs`) -/

/-- The `id_to_summary` map of `reorder_accounts`, built by inserting every
summary keyed by its id into a `HashMap`: a later duplicate id overwrites an
earlier one, so lookup returns the last summary carrying the id. -/
def find_last_by_id (accounts : List AccountSummary) (account_id : String) :
    Option AccountSummary :=
  match accounts with
  | [] => none
  | s :: rest =>
    match find_last_by_id rest account_id with
    | some r => some r
    | none => if s.id = account_id then some s else none

/-- Embeds `reorder_accounts`: push the map entry of each requested id in input
order (ids absent from the index are skipped), then append every summary
whose id is missing from the input, preserving its pre-existing order. -/
def reorder_accounts (index : AccountIndex) (account_ids : List String) :
    AccountIndex :=
  { index with
    accounts :=
      account_ids.filterMap (find_last_by_id index.accounts) ++
        index.accounts.filter (fun s => decide (s.id ∉ account_ids)) }

/-! ### Upsert (`account.rs`) -/

/-- The name-sync step of `upsert_account`: set the `name` of the first
summary with the given id (`iter_mut().find(..)`), leaving the rest
unchanged. -/
def set_name_of_first (accounts : List AccountSummary) (account_id : String)
    (name : Option String) : List AccountSummary :=
  match accounts with
  | [] => []
  | s :: rest =>
    if s.id = account_id then { s with name := name } :: rest
    else s :: set_name_of_first rest account_id name

/-- Embeds `add_account`: reject a duplicate email, otherwise create a fresh
account under a fresh id (`fresh_id` stands for the generated UUID), append
its summary, and point the current pointer at it when none was set.
The pair returned is the created account and the saved index. -/
def add_account (index : AccountIndex) (fresh_id email : String)
    (name : Option String) (token : TokenData) (now : Int) :
    Except String (Account × AccountIndex) :=
  if index.accounts.any (fun s => decide (s.email = email)) then
    .error ("Account already exists: " ++ email)
  else
    let account := { Account.new fresh_id email token now with name := name }
    .ok (account,
      { index with
        accounts := index.accounts ++ [account.toSummary]
        current_account_id :=
          if index.current_account_id = none then some fresh_id
          else index.current_account_id })

/-- Embeds `upsert_account`.  `load_detail` stands for `load_account` on the detail
file (`none` when the file is missing or unreadable); `fresh_id` and `now`
are the UUID and timestamp drawn when a new account must be created.  On an
existing email: replace token and name, clear the disabled flag and its
metadata when the account was disabled and a token component actually
changed, bump last-used, and sync the name into the index summary.  When
the detail file cannot be loaded, recreate a fresh account under the
existing id instead of failing.  On an unknown email, fall through to
`add_account` (after releasing the mutex in the source). -/
def upsert_account (index : AccountIndex)
    (load_detail : String → Option Account) (fresh_id email : String)
    (name : Option String) (token : TokenData) (now : Int) :
    Except String (Account × AccountIndex) :=
  match index.accounts.find? (fun s => decide (s.email = email)) with
  | some s =>
    match load_detail s.id with
    | some account0 =>
      let old_access := account0.token.access_token
      let old_refresh := account0.token.refresh_token
      let account1 := { account0 with token := token, name := name }
      let account2 :=
        if account1.disabled &&
            (decide (account1.token.refresh_token ≠ old_refresh) ||
              decide (account1.token.access_token ≠ old_access)) then
          { account1 with
            disabled := false, disabled_reason := none, disabled_at := none }
        else account1
      .ok (account2.update_last_used now,
        { index with accounts := set_name_of_first index.accounts s.id name })
    | none =>
      let account := { Account.new s.id email token now with name := name }
      .ok (account,
        { index with accounts := set_name_of_first index.accounts s.id name })
  | none => add_account index fresh_id email name token now

/-- A concrete account used to evaluate the operations. -/
def sampleAccount : Account :=
  Account.new "a1" "u1@x" (TokenData.new "at" "rt" 0 none none none) 0

/-- The sample account, hard-disabled as by an `invalid_grant`. -/
def disabledSampleAccount : Account :=
  { sampleAccount with
    disabled := true
    disabled_reason := some "invalid_grant"
    disabled_at := some 7 }

instance {α β : Type} [DecidableEq α] [DecidableEq β] :
    DecidableEq (Except α β) := fun x y =>
  match x, y with
  | .ok a, .ok b =>
    if h : a = b then isTrue (by rw [h]) else
      isFalse (fun hc => h (Except.ok.inj hc))
  | .error a, .error b =>
    if h : a = b then isTrue (by rw [h]) else
      isFalse (fun hc => h (Except.error.inj hc))
  | .ok _, .error _ => isFalse (fun hc => Except.noConfusion hc)
  | .error _, .ok _ => isFalse (fun hc => Except.noConfusion hc)

/-! ### Quota protection (`account.rs`, `update_account_quota`) -/

/-- Modelled from the spec: the `quota_protection` section of the app
configuration — enabled flag, threshold percentage (a `u8` cast to `i32`
at use), and the monitored standardized model ids. -/
structure QuotaProtectionConfig where
  enabled : Bool
  threshold_percentage : Int
  monitored_models : List String
deriving DecidableEq

/-- Modelled from the spec: the app configuration as far as
`update_account_quota` reads it. -/
structure AppConfig where
  quota_protection : QuotaProtectionConfig
deriving DecidableEq

/-- The `group_min_percentage` map of `update_account_quota` at a given
standardized id: every fetched model whose name normalizes to the id lowers
the entry, which starts at 100 (`or_insert(100)`); ids no variant maps to
read back as 100 (`unwrap_or(100)`). -/
def group_min_percentage (norm : String → Option String)
    (models : List ModelQuota) (std_id : String) : Int :=
  models.foldl
    (fun acc m =>
      if norm m.name = some std_id then
        if m.percentage < acc then m.percentage else acc
      else acc)
    100

/-- The per-monitored-id protection update loop of `update_account_quota`:
insert the id when its group minimum is at or below the threshold,
remove it otherwise. -/
def apply_protection (norm : String → Option String)
    (models : List ModelQuota) (threshold : Int) (monitored : List String)
    (prot : Finset String) : Finset String :=
  monitored.foldl
    (fun P std_id =>
      if group_min_percentage norm models std_id ≤ threshold then
        insert std_id P
      else P.erase std_id)
    prot

/-- Embeds `update_account_quota`, the account transformation: store the fetched
quota (`Account::update_quota`, modelled from the spec as setting the
`quota` field), then — when configuration loading succeeded (`cfg` is some)
and quota protection is enabled — run the protection loop over the
monitored ids and migrate the legacy account-level `quota_protection`
proxy-disable.  `norm` is the model-mapping collaborator's
`normalize_to_standard_id`.  The detail save, index summary mirror and
notifier signal do not alter the account value. -/
def update_account_quota (cfg : Option AppConfig)
    (norm : String → Option String) (account : Account)
    (quota : QuotaData) : Account :=
  let account := { account with quota := some quota }
  match cfg with
  | none => account
  | some c =>
    if c.quota_protection.enabled then
      match account.quota with
      | some q =>
        let account := { account with
          protected_models := apply_protection norm q.models
            c.quota_protection.threshold_percentage
            c.quota_protection.monitored_models account.protected_models }
        if account.proxy_disabled &&
            decide (account.proxy_disabled_reason = some "quota_protection")
        then
          { account with
            proxy_disabled := false
            proxy_disabled_reason := none
            proxy_disabled_at := none }
        else account
      | none => account
    else account

/-- A concrete model-name normalization used to evaluate the protection
loop: both variant names collapse to the standardized id `gemini`. -/
def toy_norm : String → Option String :=
  fun n => if n = "m1" || n = "m2" then some "gemini" else none

/-! ### Quota fetch with retry (`account.rs`, `fetch_quota_with_retry`) -/

/-- Embeds `AppError` as far as `fetch_quota_with_retry` produces or inspects it:
OAuth collaborator errors, account-store errors, and network errors
carrying an optional HTTP status. -/
inductive AppError where
  | oauth (msg : String)
  | account (msg : String)
  | network (msg : String) (status : Option Nat)
deriving DecidableEq

/-- The OAuth collaborator's `refresh_access_token` response as used here:
the new access token and its lifetime. -/
structure TokenResponse where
  access_token : String
  expires_in : Int
deriving DecidableEq

/-- The external collaborators of `fetch_quota_with_retry` as determinate
oracles: `ensure_fresh_token`, `refresh_access_token`, `get_user_info`
(projected through `get_display_name`), and the n-th `fetch_quota` call
(yielding the quota and an optionally updated project id). -/
structure QuotaEnv where
  ensure_fresh_token : Except String TokenData
  refresh_access_token : Except String TokenResponse
  user_info : Except String (Option String)
  fetch_quota : Nat → Except AppError (QuotaData × Option String)

/-- Kernel-computable `String::starts_with` on character lists (pattern
first). -/
def starts_with_chars : List Char → List Char → Bool
  | [], _ => true
  | _ :: _, [] => false
  | p :: ps, c :: cs => decide (p = c) && starts_with_chars ps cs

/-- Kernel-computable occurrence of a pattern inside a character list. -/
def contains_chars (pat : List Char) : List Char → Bool
  | [] => pat.isEmpty
  | c :: cs => starts_with_chars pat (c :: cs) || contains_chars pat cs

/-- Rust `str::contains(pat)`, as used for the `invalid_grant` test. -/
def contains_sub (s pat : String) : Bool := contains_chars pat.data s.data

/-- Rust `account.name.is_none() || account.name.as_ref().map_or(false,
|n| n.trim().is_empty())` — the display name is missing or blank. -/
def name_missing (a : Account) : Bool :=
  match a.name with
  | none => true
  | some n => trimmed_is_empty n

/-- Result of one `fetch_quota_with_retry` run: the returned value, the
final in-memory account, the `(email, name, token)` triples persisted via
`upsert_account`, whether the hard-disable `save_account` path ran, and how
many times the quota endpoint was called. -/
structure FetchOutcome where
  result : Except AppError QuotaData
  account : Account
  upserts : List (String × Option String × TokenData)
  saved_disabled : Bool
  fetch_calls : Nat
deriving DecidableEq

/-- The `invalid_grant` hard-disable of `fetch_quota_with_retry`: set
`disabled`, `disabled_at` and `disabled_reason` on the account. -/
def disable_for_invalid_grant (acc : Account) (e : String) (now : Int) :
    Account :=
  { acc with
    disabled := true
    disabled_at := some now
    disabled_reason := some ("invalid_grant: " ++ e) }

/-- Step 1 of `fetch_quota_with_retry` after a successful
`ensure_fresh_token`: when the token rotated, fetch the display name if it
is missing, store token and name and persist them through upsert. -/
def rotation_stage (env : QuotaEnv) (token : TokenData) (acc : Account) :
    Account × List (String × Option String × TokenData) :=
  if token.access_token ≠ acc.token.access_token then
    let name := if name_missing acc then
        (match env.user_info with
         | .ok u => u
         | .error _ => none)
      else acc.name
    ({ acc with token := token, name := name }, [(acc.email, name, token)])
  else (acc, [])

/-- Step 0 of `fetch_quota_with_retry`: supplement a still-missing display
name from the user-info endpoint, persisting through upsert on success
(even when the fetched display name is empty). -/
def supplement_name_stage (env : QuotaEnv)
    (st : Account × List (String × Option String × TokenData)) :
    Account × List (String × Option String × TokenData) :=
  if name_missing st.1 then
    match env.user_info with
    | .ok display_name =>
      ({ st.1 with name := display_name },
        st.2 ++ [(st.1.email, display_name, st.1.token)])
    | .error _ => st
  else st

/-- The project-id capture of `fetch_quota_with_retry`, run after the
first attempt and again after the retry: when a successful response
carries a project id different from the stored one, store and persist
it. -/
def capture_project_id
    (result : Except AppError (QuotaData × Option String))
    (st : Account × List (String × Option String × TokenData)) :
    Account × List (String × Option String × TokenData) :=
  match result with
  | .ok (_, project_id) =>
    if project_id ≠ none ∧ project_id ≠ st.1.token.project_id then
      let t := { st.1.token with project_id := project_id }
      ({ st.1 with token := t }, st.2 ++ [(st.1.email, st.1.name, t)])
    else st
  | .error _ => st

/-- The 401 branch of `fetch_quota_with_retry`: force a refresh-token
exchange (with the same `invalid_grant` hard-disable handling), rebuild
the token keeping the stored refresh token and project id, persist it with
a freshly fetched display name when missing, retry the quota call exactly
once, capture a project id from the retry, and translate a 403 retry
status into an empty quota marked forbidden. -/
def handle_unauthorized_retry (env : QuotaEnv) (now : Int)
    (st : Account × List (String × Option String × TokenData)) :
    FetchOutcome :=
  match env.refresh_access_token with
  | .error e =>
    if contains_sub e "invalid_grant" then
      { result := .error (.oauth e)
        account := disable_for_invalid_grant st.1 e now
        upserts := st.2
        saved_disabled := true
        fetch_calls := 1 }
    else
      { result := .error (.oauth e), account := st.1, upserts := st.2
        saved_disabled := false, fetch_calls := 1 }
  | .ok token_res =>
    let new_token := TokenData.new token_res.access_token
      st.1.token.refresh_token token_res.expires_in
      st.1.token.email st.1.token.project_id none
    let name := if name_missing st.1 then
        (match env.user_info with
         | .ok u => u
         | .error _ => none)
      else st.1.name
    let st4 : Account × List (String × Option String × TokenData) :=
      ({ st.1 with token := new_token, name := name },
        st.2 ++ [(st.1.email, name, new_token)])
    let retry_result := env.fetch_quota 1
    let st5 := capture_project_id retry_result st4
    let final : Except AppError QuotaData :=
      match retry_result with
      | .error (.network _ (some 403)) =>
        .ok { QuotaData.new with is_forbidden := true }
      | other => other.map (fun p => p.1)
    { result := final, account := st5.1, upserts := st5.2
      saved_disabled := false, fetch_calls := 2 }

/-- Embeds `fetch_quota_with_retry`, assembled from its stages exactly in source
order: the timed `ensure_fresh_token` with `invalid_grant` hard-disable,
the rotation and display-name stages, the first quota attempt with
project-id capture, the 401 retry branch, and otherwise the first result
mapped to its quota. -/
def fetch_quota_with_retry (env : QuotaEnv) (acc0 : Account) (now : Int) :
    FetchOutcome :=
  match env.ensure_fresh_token with
  | .error e =>
    if contains_sub e "invalid_grant" then
      { result := .error (.oauth e)
        account := disable_for_invalid_grant acc0 e now
        upserts := []
        saved_disabled := true
        fetch_calls := 0 }
    else
      { result := .error (.oauth e), account := acc0, upserts := []
        saved_disabled := false, fetch_calls := 0 }
  | .ok token =>
    let st2 := supplement_name_stage env (rotation_stage env token acc0)
    let result0 := env.fetch_quota 0
    let st3 := capture_project_id result0 st2
    match result0 with
    | .error (.network _ (some 401)) => handle_unauthorized_retry env now st3
    | other =>
      { result := other.map (fun p => p.1), account := st3.1
        upserts := st3.2, saved_disabled := false, fetch_calls := 1 }

/-- A concrete collaborator environment replaying the spec's 401-then-403
scenario: the stored token is still fresh, the first quota call is
rejected with 401, the forced refresh succeeds, and the retry answers
403. -/
def toy_env : QuotaEnv where
  ensure_fresh_token := .ok (TokenData.new "at" "rt" 0 none none none)
  refresh_access_token := .ok ⟨"at2", 3600⟩
  user_info := .error "unavailable"
  fetch_quota := fun n =>
    if n = 0 then .error (.network "unauthorized" (some 401))
    else .error (.network "forbidden" (some 403))

/-! ### Theorems -/

theorem cmp_parts_nil_right (as_ : List Nat) :
    cmp_parts as_ [] = cmp_tail_right as_ := by
  cases as_ <;> rfl

theorem cmp_parts_unfold (a b : List Nat) :
    cmp_parts a b =
      match cmpNat (a.headD 0) (b.headD 0) with
      | .eq => cmp_parts a.tail b.tail
      | o => o := by
  cases a with
  | nil =>
    cases b with
    | nil => rfl
    | cons b bs => rfl
  | cons a as_ =>
    cases b with
    | nil =>
      show cmp_tail_right (a :: as_) = _
      simp only [cmp_tail_right, List.headD, List.tail, cmp_parts_nil_right]
    | cons b bs => rfl

theorem cmpNat_self (a : Nat) : cmpNat a a = .eq := by
  simp [cmpNat]

theorem cmpNat_cases (a b : Nat) :
    (cmpNat a b = .lt ∧ a < b) ∨ (cmpNat a b = .eq ∧ a = b) ∨
      (cmpNat a b = .gt ∧ b < a) := by
  unfold cmpNat
  rcases Nat.lt_trichotomy a b with h | h | h
  · left; simp [h]
  · right; left; simp [h]
  · right; right
    constructor
    · have h1 : ¬ a < b := by omega
      have h2 : ¬ a = b := by omega
      simp [h1, h2]
    · exact h

theorem cmp_parts_self (l : List Nat) : cmp_parts l l = .eq := by
  induction l with
  | nil => rfl
  | cons a as_ ih => simp [cmp_parts, cmpNat_self, ih]

theorem compare_semver_self (v : String) : compare_semver v v = .eq :=
  cmp_parts_self _

theorem cmp_parts_ge_trans_aux (n : Nat) :
    ∀ a b c : List Nat, a.length + b.length + c.length ≤ n →
      cmp_parts a b ≠ .lt → cmp_parts b c ≠ .lt → cmp_parts a c ≠ .lt := by
  induction n with
  | zero =>
    intro a b c hlen _ _
    have ha : a = [] := by cases a <;> simp_all
    have hc : c = [] := by cases c <;> simp_all
    subst ha; subst hc
    simp [cmp_parts, cmp_tail_left]
  | succ n ih =>
    intro a b c hlen h1 h2
    rw [cmp_parts_unfold] at h1 h2 ⊢
    rcases cmpNat_cases (a.headD 0) (b.headD 0) with ⟨e1, l1⟩ | ⟨e1, l1⟩ | ⟨e1, l1⟩
    · rw [e1] at h1; exact absurd rfl h1
    · rw [e1] at h1
      rcases cmpNat_cases (b.headD 0) (c.headD 0) with ⟨e2, l2⟩ | ⟨e2, l2⟩ | ⟨e2, l2⟩
      · rw [e2] at h2; exact absurd rfl h2
      · rw [e2] at h2
        have hac : a.headD 0 = c.headD 0 := l1.trans l2
        rw [hac, cmpNat_self]
        by_cases hz : a = [] ∧ b = [] ∧ c = []
        · obtain ⟨za, zb, zc⟩ := hz
          subst za; subst zb; subst zc
          simpa using h1
        · have htl : a.tail.length + b.tail.length + c.tail.length ≤ n := by
            rcases List.eq_nil_or_concat a with za | ⟨_, _, _⟩ <;>
              cases a <;> cases b <;> cases c <;> simp_all <;> omega
          exact ih a.tail b.tail c.tail htl h1 h2
      · have hac : c.headD 0 < a.headD 0 := by omega
        have : cmpNat (a.headD 0) (c.headD 0) = .gt := by
          rcases cmpNat_cases (a.headD 0) (c.headD 0) with ⟨e3, l3⟩ | ⟨e3, l3⟩ | ⟨e3, l3⟩ <;>
            first
            | (exfalso; omega)
            | exact e3
        rw [this]
        intro h; exact Ordering.noConfusion h
    · rcases cmpNat_cases (b.headD 0) (c.headD 0) with ⟨e2, l2⟩ | ⟨e2, l2⟩ | ⟨e2, l2⟩
      · rw [e2] at h2; exact absurd rfl h2
      all_goals
        have hac : c.headD 0 < a.headD 0 := by omega
        have hgt : cmpNat (a.headD 0) (c.headD 0) = .gt := by
          rcases cmpNat_cases (a.headD 0) (c.headD 0) with ⟨e3, l3⟩ | ⟨e3, l3⟩ | ⟨e3, l3⟩ <;>
            first
            | (exfalso; omega)
            | exact e3
        rw [hgt]
        intro h; exact Ordering.noConfusion h

theorem cmp_parts_ge_trans {a b c : List Nat}
    (h1 : cmp_parts a b ≠ .lt) (h2 : cmp_parts b c ≠ .lt) :
    cmp_parts a c ≠ .lt :=
  cmp_parts_ge_trans_aux (a.length + b.length + c.length) a b c le_rfl h1 h2

theorem cmp_parts_swap (a b : List Nat) :
    cmp_parts a b = (cmp_parts b a).swap := by
  have aux : ∀ (n : Nat) (a b : List Nat), a.length + b.length ≤ n →
      cmp_parts a b = (cmp_parts b a).swap := by
    intro n
    induction n with
    | zero =>
      intro a b hlen
      have ha : a = [] := by cases a <;> simp_all
      have hb : b = [] := by cases b <;> simp_all
      subst ha; subst hb; rfl
    | succ n ih =>
      intro a b hlen
      rw [cmp_parts_unfold, cmp_parts_unfold b a]
      rcases cmpNat_cases (a.headD 0) (b.headD 0) with ⟨e1, l1⟩ | ⟨e1, l1⟩ | ⟨e1, l1⟩ <;>
        rcases cmpNat_cases (b.headD 0) (a.headD 0) with ⟨e2, l2⟩ | ⟨e2, l2⟩ | ⟨e2, l2⟩ <;>
          rw [e1, e2] <;> first
          | (exfalso; omega)
          | rfl
          | skip
      by_cases hz : a = [] ∧ b = []
      · obtain ⟨za, zb⟩ := hz; subst za; subst zb; rfl
      · have htl : a.tail.length + b.tail.length ≤ n := by
          cases a <;> cases b <;> simp_all <;> omega
        exact ih a.tail b.tail htl
  exact aux (a.length + b.length) a b le_rfl

theorem compare_semver_ge_trans {a b c : String}
    (h1 : compare_semver a b ≠ .lt) (h2 : compare_semver b c ≠ .lt) :
    compare_semver a c ≠ .lt :=
  cmp_parts_ge_trans h1 h2

theorem compare_semver_not_gt {a b : String}
    (h : compare_semver a b ≠ .gt) : compare_semver b a ≠ .lt := by
  unfold compare_semver at *
  rw [cmp_parts_swap]
  intro hcon
  apply h
  cases hsw : cmp_parts (version_parts a) (version_parts b) <;>
    rw [hsw] at hcon <;> simp [Ordering.swap] at hcon ⊢

theorem compare_semver_self_ne_lt (v : String) : compare_semver v v ≠ .lt := by
  rw [compare_semver_self]
  intro h; exact Ordering.noConfusion h

theorem consider_candidate_mem (cand : Option String) (src : VersionSource)
    (best : String × VersionSource) :
    (consider_candidate cand src best).1 = best.1 ∨
      some (consider_candidate cand src best).1 = cand := by
  cases cand with
  | none => left; rfl
  | some v =>
    by_cases h : compare_semver v best.1 = .gt
    · right; simp [consider_candidate, h]
    · left; simp [consider_candidate, h]

theorem consider_candidate_ge_prev (cand : Option String) (src : VersionSource)
    (best : String × VersionSource) :
    compare_semver (consider_candidate cand src best).1 best.1 ≠ .lt := by
  cases cand with
  | none => exact compare_semver_self_ne_lt _
  | some v =>
    by_cases h : compare_semver v best.1 = .gt
    · simp only [consider_candidate, h, if_pos]
      intro hc; exact Ordering.noConfusion hc
    · simp only [consider_candidate, h, if_neg]
      exact compare_semver_self_ne_lt _

theorem consider_candidate_ge_cand (v : String) (src : VersionSource)
    (best : String × VersionSource) :
    compare_semver (consider_candidate (some v) src best).1 v ≠ .lt := by
  by_cases h : compare_semver v best.1 = .gt
  · simp only [consider_candidate, h, if_pos]
    exact compare_semver_self_ne_lt _
  · simp only [consider_candidate, h, if_neg]
    exact compare_semver_not_gt h

theorem consider_chain_max (floor : String) (localv remote : Option String)
    (t0 t1 t2 : VersionSource) (s1 s2 : String × VersionSource)
    (e1 : s1 = consider_candidate localv t1 (floor, t0))
    (e2 : s2 = consider_candidate remote t2 s1) :
    s2.1 ∈ floor :: (localv.toList ++ remote.toList) ∧
      ∀ c ∈ floor :: (localv.toList ++ remote.toList),
        compare_semver s2.1 c ≠ .lt := by
  have h21 : compare_semver s2.1 s1.1 ≠ .lt := by
    rw [e2]; exact consider_candidate_ge_prev _ _ _
  have h10 : compare_semver s1.1 floor ≠ .lt := by
    rw [e1]; exact consider_candidate_ge_prev _ _ (floor, t0)
  have h20 : compare_semver s2.1 floor ≠ .lt := compare_semver_ge_trans h21 h10
  constructor
  · rcases (e2 ▸ consider_candidate_mem remote t2 s1 :
        s2.1 = s1.1 ∨ some s2.1 = remote) with h2 | h2
    · rcases (e1 ▸ consider_candidate_mem localv t1 (floor, t0) :
          s1.1 = floor ∨ some s1.1 = localv) with h1 | h1
      · rw [h2, h1]; exact List.mem_cons_self _ _
      · apply List.mem_cons_of_mem
        apply List.mem_append_left
        cases localv with
        | none => exact Option.noConfusion h1
        | some lv =>
          have : s1.1 = lv := Option.some_inj.mp h1
          simp [h2, this]
    · apply List.mem_cons_of_mem
      apply List.mem_append_right
      cases remote with
      | none => exact Option.noConfusion h2
      | some rv =>
        have : s2.1 = rv := Option.some_inj.mp h2
        simp [this]
  · intro c hc
    rcases List.mem_cons.mp hc with hc | hc
    · rw [hc]; exact h20
    rcases List.mem_append.mp hc with hc | hc
    · cases localv with
      | none => simp at hc
      | some lv =>
        simp only [Option.toList, List.mem_singleton] at hc
        rw [hc]
        have h1l : compare_semver s1.1 lv ≠ .lt := by
          rw [e1]; exact consider_candidate_ge_cand _ _ _
        exact compare_semver_ge_trans h21 h1l
    · cases remote with
      | none => simp at hc
      | some rv =>
        simp only [Option.toList, List.mem_singleton] at hc
        rw [hc, e2]
        exact consider_candidate_ge_cand _ _ _

/-- C6: for every combination of availability of the parsed local
installation version and of the remote version, the resolved client version
is one of the candidate versions (floor, local, remote), compares
greater-or-equal (under `compare_semver`, numeric left-to-right with
missing components as zero) to every available candidate, and in
particular is never below the hard-coded floor. -/
theorem resolve_version_config_is_max (localv remote : Option String) :
    (resolve_version_config localv remote).1.version ∈
        KNOWN_STABLE_VERSION :: (localv.toList ++ remote.toList) ∧
      (∀ c ∈ KNOWN_STABLE_VERSION :: (localv.toList ++ remote.toList),
        compare_semver (resolve_version_config localv remote).1.version c ≠ .lt) ∧
      compare_semver (resolve_version_config localv remote).1.version
          KNOWN_STABLE_VERSION ≠ .lt := by
  obtain ⟨hmem, hge⟩ := consider_chain_max KNOWN_STABLE_VERSION localv remote
    .knownStableFallback .localInstallation .remoteAPI
    (consider_candidate localv .localInstallation
      (KNOWN_STABLE_VERSION, .knownStableFallback))
    (consider_candidate remote .remoteAPI
      (consider_candidate localv .localInstallation
        (KNOWN_STABLE_VERSION, .knownStableFallback)))
    rfl rfl
  exact ⟨hmem, hge, hge KNOWN_STABLE_VERSION (List.mem_cons_self _ _)⟩

theorem strLtB_irrefl (l : List Char) : strLtB l l = false := by
  induction l with
  | nil => rfl
  | cons a as_ ih => simp [strLtB, ih]

theorem strLtB_asymm : ∀ {x y : List Char},
    strLtB x y = true → strLtB y x = false := by
  intro x
  induction x with
  | nil =>
    intro y h
    cases y with
    | nil => exact absurd h (by simp [strLtB])
    | cons b bs => rfl
  | cons a as_ ih =>
    intro y h
    cases y with
    | nil => exact absurd h (by simp [strLtB])
    | cons b bs =>
      simp only [strLtB] at h ⊢
      by_cases h1 : a.toNat < b.toNat
      · have h2 : ¬ b.toNat < a.toNat := by omega
        have h3 : ¬ b.toNat = a.toNat := by omega
        rw [if_neg h2, if_neg h3]
      · by_cases h2 : a.toNat = b.toNat
        · rw [if_neg h1, if_pos h2] at h
          have h3 : ¬ b.toNat < a.toNat := by omega
          rw [if_neg h3, if_pos h2.symm]
          exact ih h
        · rw [if_neg h1, if_neg h2] at h
          exact absurd h (by simp)

theorem strLtB_eq_of_not_lt : ∀ {x y : List Char},
    strLtB x y = false → strLtB y x = false → x = y := by
  intro x
  induction x with
  | nil =>
    intro y h _
    cases y with
    | nil => rfl
    | cons b bs => exact absurd h (by simp [strLtB])
  | cons a as_ ih =>
    intro y h h'
    cases y with
    | nil => exact absurd h' (by simp [strLtB])
    | cons b bs =>
      simp only [strLtB] at h h'
      by_cases h1 : a.toNat < b.toNat
      · rw [if_pos h1] at h
        exact absurd h (by simp)
      · by_cases h2 : a.toNat = b.toNat
        · rw [if_neg h1, if_pos h2] at h
          have h3 : ¬ b.toNat < a.toNat := by omega
          rw [if_neg h3, if_pos h2.symm] at h'
          have hc : a = b := Char.ext (UInt32.ext h2)
          rw [hc, ih h h']
        · have h3 : b.toNat < a.toNat := by omega
          rw [if_pos h3] at h'
          exact absurd h' (by simp)

theorem strLtB_trans : ∀ {x y z : List Char},
    strLtB x y = true → strLtB y z = true → strLtB x z = true := by
  intro x
  induction x with
  | nil =>
    intro y z h1 h2
    cases y with
    | nil => exact absurd h1 (by simp [strLtB])
    | cons b bs =>
      cases z with
      | nil => exact absurd h2 (by simp [strLtB])
      | cons c cs => rfl
  | cons a as_ ih =>
    intro y z h1 h2
    cases y with
    | nil => exact absurd h1 (by simp [strLtB])
    | cons b bs =>
      cases z with
      | nil => exact absurd h2 (by simp [strLtB])
      | cons c cs =>
        simp only [strLtB] at h1 h2 ⊢
        by_cases hab : a.toNat < b.toNat <;> by_cases hbc : b.toNat < c.toNat
        · have hac : a.toNat < c.toNat := by omega
          rw [if_pos hac]
        · rw [if_neg hbc] at h2
          by_cases hbc2 : b.toNat = c.toNat
          · have hac : a.toNat < c.toNat := by omega
            rw [if_pos hac]
          · rw [if_neg hbc2] at h2
            exact absurd h2 (by simp)
        · rw [if_neg hab] at h1
          by_cases hab2 : a.toNat = b.toNat
          · have hac : a.toNat < c.toNat := by omega
            rw [if_pos hac]
          · rw [if_neg hab2] at h1
            exact absurd h1 (by simp)
        · rw [if_neg hab] at h1
          rw [if_neg hbc] at h2
          by_cases hab2 : a.toNat = b.toNat
          · by_cases hbc2 : b.toNat = c.toNat
            · rw [if_pos hab2] at h1
              rw [if_pos hbc2] at h2
              have hac : ¬ a.toNat < c.toNat := by omega
              have hac2 : a.toNat = c.toNat := by omega
              rw [if_neg hac, if_pos hac2]
              exact ih h1 h2
            · rw [if_neg hbc2] at h2
              exact absurd h2 (by simp)
          · rw [if_neg hab2] at h1
            exact absurd h1 (by simp)

theorem strLeB_trans {x y z : List Char}
    (h1 : strLtB y x = false) (h2 : strLtB z y = false) :
    strLtB z x = false := by
  by_cases hxy : strLtB x y = true
  · by_cases hyz : strLtB y z = true
    · exact strLtB_asymm (strLtB_trans hxy hyz)
    · have hez : y = z :=
        strLtB_eq_of_not_lt (Bool.eq_false_iff.mpr hyz) h2
      rw [← hez]; exact h1
  · have hexy : x = y :=
      strLtB_eq_of_not_lt (Bool.eq_false_iff.mpr hxy) h1
    rw [hexy]; exact h2

theorem summaryLE_total : IsTotal AccountSummary SummaryLE := by
  constructor
  intro a b
  simp only [SummaryLE, summary_le, Bool.or_eq_true, decide_eq_true_eq,
    Bool.and_eq_true, Bool.not_eq_true']
  rcases lt_trichotomy a.last_used b.last_used with h | h | h
  · right; left; exact h
  · by_cases hs : strLtB b.email.data a.email.data = true
    · right; right; exact ⟨h, strLtB_asymm hs⟩
    · left; right; exact ⟨h.symm, Bool.eq_false_iff.mpr hs⟩
  · left; left; exact h

theorem summaryLE_trans : IsTrans AccountSummary SummaryLE := by
  constructor
  intro a b c hab hbc
  simp only [SummaryLE, summary_le, Bool.or_eq_true, decide_eq_true_eq,
    Bool.and_eq_true, Bool.not_eq_true'] at hab hbc ⊢
  rcases hab with hab | ⟨hab, sab⟩ <;> rcases hbc with hbc | ⟨hbc, sbc⟩
  · left; exact hbc.trans hab
  · left; exact lt_of_le_of_lt (le_of_eq hbc) hab
  · left; exact lt_of_lt_of_le hbc (le_of_eq hab)
  · right; exact ⟨hbc.trans hab, strLeB_trans sab sbc⟩

theorem load_parses_sanitized (decode : List Nat → String)
    (parse : String → Option AccountIndex) (raw : List Nat)
    (details : List (Option Account)) (lock_free : Bool) (ts uuid : String)
    (idx : AccountIndex) (hraw : raw.isEmpty = false)
    (hws : trimmed_is_empty (decode (sanitize_index_content raw)) = false)
    (hparse : parse (decode (sanitize_index_content raw)) = some idx) :
    load_account_index_in_dir decode parse (some raw) details lock_free ts uuid
      = { index := idx, backup := none, saved_recovered := false } := by
  simp only [load_account_index_in_dir, hraw, hws, hparse,
    Bool.false_eq_true, if_false]

theorem dropWhile_nul_of_head {B : List Nat} (hne : B ≠ [])
    (hnul : B.head? ≠ some 0x00) :
    B.dropWhile (fun b => b == 0x00) = B := by
  cases B with
  | nil => exact absurd rfl hne
  | cons b bs =>
    have hb : b ≠ 0x00 := by
      intro h; exact hnul (by rw [h]; rfl)
    simp [List.dropWhile_cons, hb]

theorem sanitize_plain {B : List Nat} (hne : B ≠ [])
    (hbom : B.take 3 ≠ [0xEF, 0xBB, 0xBF]) (hnul : B.head? ≠ some 0x00) :
    sanitize_index_content B = B := by
  unfold sanitize_index_content
  rw [if_neg hbom]
  exact dropWhile_nul_of_head hne hnul

theorem sanitize_bom {B : List Nat} (hne : B ≠ [])
    (hnul : B.head? ≠ some 0x00) :
    sanitize_index_content ([0xEF, 0xBB, 0xBF] ++ B) = B := by
  have h3 : List.take 3 ([0xEF, 0xBB, 0xBF] ++ B) = [0xEF, 0xBB, 0xBF] := rfl
  have hd : List.drop 3 ([0xEF, 0xBB, 0xBF] ++ B) = B := rfl
  unfold sanitize_index_content
  rw [if_pos h3, hd]
  exact dropWhile_nul_of_head hne hnul

theorem dropWhile_nul_replicate (k : Nat) (B : List Nat) :
    (List.replicate k 0x00 ++ B).dropWhile (fun b => b == 0x00) =
      B.dropWhile (fun b => b == 0x00) := by
  induction k with
  | zero => rfl
  | succ j ih => simp [List.replicate_succ, List.dropWhile_cons, ih]

theorem sanitize_nul_run {B : List Nat} (k : Nat) (hk : 1 ≤ k)
    (hne : B ≠ []) (hnul : B.head? ≠ some 0x00) :
    sanitize_index_content (List.replicate k 0x00 ++ B) = B := by
  obtain ⟨j, rfl⟩ : ∃ j, k = j + 1 := ⟨k - 1, by omega⟩
  unfold sanitize_index_content
  rw [if_neg ?hb]
  · exact (dropWhile_nul_replicate (j + 1) B).trans
      (dropWhile_nul_of_head hne hnul)
  case hb =>
    intro hcon
    rw [List.replicate_succ, List.cons_append, List.take_succ_cons] at hcon
    have := (List.cons.inj hcon).1
    omega

/-- C3: for every byte sequence `B` that parses as a valid `AccountIndex`
(its lossy decoding parses; valid JSON never starts with a BOM or NUL byte
and is neither empty nor whitespace-only), loading a file whose contents are
the UTF-8 BOM followed by `B`, or one-or-more NUL bytes followed by `B`,
succeeds and returns the same index as loading a file containing `B`
alone. -/
theorem load_bom_nul_equivalence (decode : List Nat → String)
    (parse : String → Option AccountIndex) (B : List Nat)
    (idx : AccountIndex) (details : List (Option Account)) (lock_free : Bool)
    (ts uuid : String) (k : Nat) (hk : 1 ≤ k) (hne : B ≠ [])
    (hbom : B.take 3 ≠ [0xEF, 0xBB, 0xBF]) (hnul : B.head? ≠ some 0x00)
    (hws : trimmed_is_empty (decode B) = false)
    (hparse : parse (decode B) = some idx) :
    load_account_index_in_dir decode parse (some ([0xEF, 0xBB, 0xBF] ++ B))
        details lock_free ts uuid =
      load_account_index_in_dir decode parse (some B)
        details lock_free ts uuid ∧
      load_account_index_in_dir decode parse
          (some (List.replicate k 0x00 ++ B)) details lock_free ts uuid =
        load_account_index_in_dir decode parse (some B)
          details lock_free ts uuid ∧
      load_account_index_in_dir decode parse (some B)
          details lock_free ts uuid =
        { index := idx, backup := none, saved_recovered := false } := by
  have hBe : B.isEmpty = false := by
    cases B with
    | nil => exact absurd rfl hne
    | cons b bs => rfl
  have hplain : sanitize_index_content B = B := sanitize_plain hne hbom hnul
  have hload : load_account_index_in_dir decode parse (some B)
      details lock_free ts uuid =
        { index := idx, backup := none, saved_recovered := false } :=
    load_parses_sanitized decode parse B details lock_free ts uuid idx hBe
      (by rw [hplain]; exact hws) (by rw [hplain]; exact hparse)
  refine ⟨?_, ?_, hload⟩
  · rw [hload]
    exact load_parses_sanitized decode parse _ details lock_free ts uuid idx
      rfl (by rw [sanitize_bom hne hnul]; exact hws)
      (by rw [sanitize_bom hne hnul]; exact hparse)
  · rw [hload]
    refine load_parses_sanitized decode parse _ details lock_free ts uuid idx
      ?_ (by rw [sanitize_nul_run k hk hne hnul]; exact hws)
      (by rw [sanitize_nul_run k hk hne hnul]; exact hparse)
    obtain ⟨j, rfl⟩ : ∃ j, k = j + 1 := ⟨k - 1, by omega⟩
    rw [List.replicate_succ, List.cons_append]
    rfl

/-- Witness for C3 at the concrete byte sequence `[111, 107]` (ASCII "ok")
with one leading NUL byte, evaluating the load pipeline concretely. -/
theorem load_bom_nul_equivalence_witness :
    (1 ≤ 1 ∧ ([111, 107] : List Nat) ≠ [] ∧
        ([111, 107] : List Nat).take 3 ≠ [0xEF, 0xBB, 0xBF] ∧
        ([111, 107] : List Nat).head? ≠ some 0x00 ∧
        trimmed_is_empty (decode_ascii [111, 107]) = false ∧
        toy_parse (decode_ascii [111, 107]) = some ⟨"2.0", [], none⟩) ∧
      load_account_index_in_dir decode_ascii toy_parse
          (some ([0xEF, 0xBB, 0xBF] ++ [111, 107])) [] true "1" "u" =
        load_account_index_in_dir decode_ascii toy_parse
          (some [111, 107]) [] true "1" "u" :=
  ⟨⟨le_rfl, by decide, by decide, by decide, by decide, by decide⟩,
    (load_bom_nul_equivalence decode_ascii toy_parse [111, 107]
      ⟨"2.0", [], none⟩ [] true "1" "u" 1 le_rfl (by decide) (by decide)
      (by decide) (by decide) (by decide)).1⟩

/-- C2 (amended): for every index file whose sanitized bytes are non-empty
and do not decode to a whitespace-only string, and which do not parse as an
`AccountIndex`, the load returns `Ok` with exactly the rebuilt-from-details
index (never surfacing the parse failure), and a sibling backup named
`accounts.json.corrupt-<unix-seconds>-<uuid>` is written whose contents are
byte-identical to the original raw (unsanitized) bytes. -/
theorem load_corrupt_backs_up_and_rebuilds (decode : List Nat → String)
    (parse : String → Option AccountIndex) (raw : List Nat)
    (details : List (Option Account)) (lock_free : Bool) (ts uuid : String)
    (hsan : sanitize_index_content raw ≠ [])
    (hws : trimmed_is_empty (decode (sanitize_index_content raw)) = false)
    (hparse : parse (decode (sanitize_index_content raw)) = none) :
    load_account_index_in_dir decode parse (some raw) details lock_free ts uuid
      = { index := rebuild_index_from_accounts_in_dir details
          backup := some (corrupt_backup_name ts uuid, raw)
          saved_recovered := lock_free } := by
  have hne : raw ≠ [] := by
    intro h
    exact hsan (by rw [h]; rfl)
  have hraw : raw.isEmpty = false := by
    cases raw with
    | nil => exact absurd rfl hne
    | cons b bs => rfl
  simp only [load_account_index_in_dir, hraw, hws, hparse,
    try_save_recovered_index, Bool.false_eq_true, if_false]
  rfl

/-- Witness for the amended C2 at the concrete file contents `[60]` (the
single byte `<`): the load rebuilds from two detail files and writes a
backup holding the original byte. -/
theorem load_corrupt_backs_up_and_rebuilds_witness :
    (sanitize_index_content [60] ≠ [] ∧
        trimmed_is_empty (decode_ascii (sanitize_index_content [60])) = false ∧
        no_parse (decode_ascii (sanitize_index_content [60])) = none) ∧
      load_account_index_in_dir decode_ascii no_parse (some [60])
          [some (Account.new "a1" "u1@x" (TokenData.new "at" "rt" 0 none none none) 5)]
          true "1700000000" "u" =
        { index := rebuild_index_from_accounts_in_dir
            [some (Account.new "a1" "u1@x" (TokenData.new "at" "rt" 0 none none none) 5)]
          backup := some (corrupt_backup_name "1700000000" "u", [60])
          saved_recovered := true } :=
  ⟨⟨by decide, by decide, by decide⟩,
    load_corrupt_backs_up_and_rebuilds decode_ascii no_parse [60]
      [some (Account.new "a1" "u1@x" (TokenData.new "at" "rt" 0 none none none) 5)]
      true "1700000000" "u" (by decide) (by decide) (by decide)⟩

/-- C2 counterexample: a file containing a single ASCII space has non-empty
sanitized bytes that do not parse as an `AccountIndex`, yet the load takes
the whitespace-only recovery branch and writes no backup — refuting the
claim that a backup exists for every non-empty unparseable sanitized
content. -/
theorem load_corrupt_no_backup_on_whitespace :
    sanitize_index_content [0x20] ≠ [] ∧
      no_parse (decode_ascii (sanitize_index_content [0x20])) = none ∧
      (load_account_index_in_dir decode_ascii no_parse (some [0x20]) []
          true "1700000000" "u").backup = none := by
  refine ⟨by decide, by decide, by decide⟩

theorem summary_le_antisymm_key {a b : AccountSummary}
    (h1 : SummaryLE a b) (h2 : SummaryLE b a) :
    a.last_used = b.last_used ∧ a.email = b.email := by
  simp only [SummaryLE, summary_le, Bool.or_eq_true, decide_eq_true_eq,
    Bool.and_eq_true, Bool.not_eq_true'] at h1 h2
  rcases h1 with h1 | ⟨h1, s1⟩ <;> rcases h2 with h2 | ⟨h2, s2⟩
  · exact absurd (h1.trans h2) (lt_irrefl _)
  · exact absurd (h2 ▸ h1) (lt_irrefl _)
  · exact absurd (h1 ▸ h2) (lt_irrefl _)
  · refine ⟨h2, ?_⟩
    have hd : a.email.data = b.email.data := strLtB_eq_of_not_lt s2 s1
    exact String.ext hd

theorem eq_of_perm_sorted_keys :
    ∀ {l₁ l₂ : List AccountSummary}, l₁.Perm l₂ →
      l₁.Sorted SummaryLE → l₂.Sorted SummaryLE →
      l₁.Pairwise (fun a b => a.last_used ≠ b.last_used ∨ a.email ≠ b.email) →
      l₁ = l₂ := by
  intro l₁
  induction l₁ with
  | nil =>
    intro l₂ hp _ _ _
    exact (List.perm_nil.mp hp.symm).symm
  | cons x t ih =>
    intro l₂ hp hs1 hs2 hnd
    cases l₂ with
    | nil =>
      have := hp.length_eq
      simp at this
    | cons y t₂ =>
      have hxy : x = y := by
        by_contra hne
        have hymem : y ∈ x :: t := hp.symm.subset (List.mem_cons_self y t₂)
        have hxmem : x ∈ y :: t₂ := hp.subset (List.mem_cons_self x t)
        have hyt : y ∈ t := by
          rcases List.mem_cons.mp hymem with h | h
          · exact absurd h.symm hne
          · exact h
        have hxt2 : x ∈ t₂ := by
          rcases List.mem_cons.mp hxmem with h | h
          · exact absurd h hne
          · exact h
        have le1 : SummaryLE x y := List.rel_of_sorted_cons hs1 y hyt
        have le2 : SummaryLE y x := List.rel_of_sorted_cons hs2 x hxt2
        obtain ⟨hlu, hem⟩ := summary_le_antisymm_key le1 le2
        rcases (List.pairwise_cons.mp hnd).1 y hyt with h | h
        · exact h hlu
        · exact h hem
      subst hxy
      have hpt : t.Perm t₂ := hp.cons_inv
      rw [ih hpt (List.Sorted.of_cons hs1) (List.Sorted.of_cons hs2)
        (List.pairwise_cons.mp hnd).2]

/-- C8: rebuilding the index from the detail directory skips the files that
fail to load, sorts the surviving summaries by `last_used` descending with
`email` ascending as tie-break, points `current_account_id` at the first
summary (or none), and — whenever the `(last_used, email)` keys are
pairwise distinct — is deterministic: any enumeration order of the same
detail files rebuilds the identical index. -/
theorem rebuild_index_deterministic (details details' : List (Option Account))
    (hperm : details.Perm details')
    (hkeys : ((details.filterMap id).map Account.toSummary).Pairwise
      (fun a b => a.last_used ≠ b.last_used ∨ a.email ≠ b.email)) :
    (rebuild_index_from_accounts_in_dir details).accounts.Sorted SummaryLE ∧
      (rebuild_index_from_accounts_in_dir details).accounts.Perm
        ((details.filterMap id).map Account.toSummary) ∧
      (rebuild_index_from_accounts_in_dir details).current_account_id =
        ((rebuild_index_from_accounts_in_dir details).accounts.head?).map
          AccountSummary.id ∧
      rebuild_index_from_accounts_in_dir details =
        rebuild_index_from_accounts_in_dir details' := by
  haveI := summaryLE_total
  haveI := summaryLE_trans
  have hsort : ∀ d : List (Option Account),
      (rebuild_index_from_accounts_in_dir d).accounts =
        List.insertionSort SummaryLE ((d.filterMap id).map Account.toSummary) :=
    fun _ => rfl
  have hsorted := List.sorted_insertionSort SummaryLE
    ((details.filterMap id).map Account.toSummary)
  have hsperm := List.perm_insertionSort SummaryLE
    ((details.filterMap id).map Account.toSummary)
  refine ⟨hsort details ▸ hsorted, hsort details ▸ hsperm, rfl, ?_⟩
  have hsumperm : ((details.filterMap id).map Account.toSummary).Perm
      ((details'.filterMap id).map Account.toSummary) :=
    (hperm.filterMap id).map Account.toSummary
  have hlperm : (List.insertionSort SummaryLE
        ((details.filterMap id).map Account.toSummary)).Perm
      (List.insertionSort SummaryLE
        ((details'.filterMap id).map Account.toSummary)) :=
    (List.perm_insertionSort _ _).trans
      (hsumperm.trans (List.perm_insertionSort _ _).symm)
  have hkeys' : (List.insertionSort SummaryLE
        ((details.filterMap id).map Account.toSummary)).Pairwise
      (fun a b => a.last_used ≠ b.last_used ∨ a.email ≠ b.email) := by
    have hsym : Symmetric
        (fun a b : AccountSummary =>
          a.last_used ≠ b.last_used ∨ a.email ≠ b.email) := by
      intro a b h
      rcases h with h | h
      · exact Or.inl (fun hc => h hc.symm)
      · exact Or.inr (fun hc => h hc.symm)
    exact hkeys.perm (List.perm_insertionSort SummaryLE _).symm
      (fun hxy => hsym hxy)
  have heq : List.insertionSort SummaryLE
        ((details.filterMap id).map Account.toSummary) =
      List.insertionSort SummaryLE
        ((details'.filterMap id).map Account.toSummary) :=
    eq_of_perm_sorted_keys hlperm
      (List.sorted_insertionSort _ _) (List.sorted_insertionSort _ _) hkeys'
  exact congrArg
    (fun l => AccountIndex.mk "2.0" l (l.head?.map AccountSummary.id)) heq

/-- Witness for C8: two concrete detail scans that are permutations of one
another (one contains a failing detail file) rebuild the identical sorted
index. -/
theorem rebuild_index_deterministic_witness :
    rebuild_index_from_accounts_in_dir
        [some (Account.new "a1" "u1@x" (TokenData.new "t" "r" 0 none none none) 5),
          none,
          some (Account.new "a2" "u2@x" (TokenData.new "t" "r" 0 none none none) 9)] =
      rebuild_index_from_accounts_in_dir
        [some (Account.new "a2" "u2@x" (TokenData.new "t" "r" 0 none none none) 9),
          some (Account.new "a1" "u1@x" (TokenData.new "t" "r" 0 none none none) 5),
          none] :=
  (rebuild_index_deterministic
    [some (Account.new "a1" "u1@x" (TokenData.new "t" "r" 0 none none none) 5),
      none,
      some (Account.new "a2" "u2@x" (TokenData.new "t" "r" 0 none none none) 9)]
    [some (Account.new "a2" "u2@x" (TokenData.new "t" "r" 0 none none none) 9),
      some (Account.new "a1" "u1@x" (TokenData.new "t" "r" 0 none none none) 5),
      none]
    (by decide) (by decide)).2.2.2

theorem delete_accounts_fold_spec (ids : List String) :
    ∀ index : AccountIndex,
      (ids.foldl delete_accounts_step index).version = index.version ∧
      (ids.foldl delete_accounts_step index).accounts =
        index.accounts.filter (fun s => decide (s.id ∉ ids)) ∧
      (ids.foldl delete_accounts_step index).current_account_id =
        (match index.current_account_id with
         | some c => if c ∈ ids then none else some c
         | none => none) := by
  induction ids with
  | nil =>
    intro index
    refine ⟨rfl, ?_, ?_⟩
    · show index.accounts = _
      simp
    · show index.current_account_id = _
      cases index.current_account_id with
      | none => rfl
      | some c => simp
  | cons a rest ih =>
    intro index
    rw [List.foldl_cons]
    obtain ⟨hv, hacc, hcur⟩ := ih (delete_accounts_step index a)
    refine ⟨hv, ?_, ?_⟩
    · rw [hacc]
      show (index.accounts.filter (fun s => decide (s.id ≠ a))).filter
          (fun s => decide (s.id ∉ rest)) = _
      rw [List.filter_filter]
      apply List.filter_congr
      intro x _
      by_cases h1 : x.id = a <;> by_cases h2 : x.id ∈ rest <;>
        simp [h1, h2, List.mem_cons]
    · rw [hcur]
      show (match (if index.current_account_id = some a then none
          else index.current_account_id) with
        | some c => if c ∈ rest then none else some c
        | none => none) = _
      cases index.current_account_id with
      | none => simp
      | some c =>
        by_cases hca : c = a
        · subst hca
          simp [List.mem_cons]
        · have hne : ¬ (some c = some a) := by
            intro h; exact hca (Option.some_inj.mp h)
          simp only [hne, if_false, List.mem_cons]
          by_cases hcr : c ∈ rest
          · simp [hcr]
          · simp [hcr, hca]

/-- C4 (amended): `delete_account` of the current account advances
`current_account_id` to the first remaining summary, or clears it when none
remain.  `delete_accounts` clears the pointer when it referenced a deleted
id, leaves a present pointer that referenced no deleted id unchanged, and at
the end refills an empty pointer — whether just cleared or already empty on
entry — with the first remaining summary's id (none when no summaries
remain). -/
theorem delete_current_pointer_semantics (index : AccountIndex)
    (account_id : String) (ids : List String) :
    ((∃ s ∈ index.accounts, s.id = account_id) →
      index.current_account_id = some account_id →
      delete_account index account_id =
        .ok { version := index.version
              accounts :=
                index.accounts.filter (fun s => decide (s.id ≠ account_id))
              current_account_id :=
                (index.accounts.filter
                  (fun s => decide (s.id ≠ account_id))).head?.map
                    AccountSummary.id }) ∧
      (∀ c, index.current_account_id = some c → c ∉ ids →
        (delete_accounts index ids).current_account_id = some c) ∧
      ((index.current_account_id = none ∨
          (∃ c, index.current_account_id = some c ∧ c ∈ ids)) →
        (delete_accounts index ids).current_account_id =
          (index.accounts.filter (fun s => decide (s.id ∉ ids))).head?.map
            AccountSummary.id) := by
  obtain ⟨hv, hacc, hcur⟩ := delete_accounts_fold_spec ids index
  refine ⟨?_, ?_, ?_⟩
  · intro hmem hcurid
    obtain ⟨s, hs, hsid⟩ := hmem
    have hlt : (index.accounts.filter
        (fun s => decide (s.id ≠ account_id))).length <
          index.accounts.length :=
      List.length_filter_lt_length_iff_exists.mpr ⟨s, hs, by simp [hsid]⟩
    unfold delete_account
    rw [if_neg (Nat.ne_of_lt hlt), if_pos hcurid]
  · intro c hc hnotin
    have hfold : (ids.foldl delete_accounts_step index).current_account_id =
        some c := by
      rw [hcur, hc]
      simp [hnotin]
    simp only [delete_accounts]
    rw [hfold]
    simp [hfold]
  · intro hcases
    have hfold : (ids.foldl delete_accounts_step index).current_account_id =
        none := by
      rw [hcur]
      rcases hcases with hn | ⟨c, hc, hin⟩
      · rw [hn]
      · rw [hc]
        simp [hin]
    simp only [delete_accounts]
    rw [hfold, hacc]
    simp

/-- Witness for the amended C4: deleting the current account `a1` from a
two-account index moves the pointer to `a2`, both through `delete_account`
and through `delete_accounts`. -/
theorem delete_current_pointer_semantics_witness :
    delete_account ⟨"2.0", [sampleSummary "a1" "e1" 5,
        sampleSummary "a2" "e2" 3], some "a1"⟩ "a1" =
      .ok ⟨"2.0", [sampleSummary "a2" "e2" 3], some "a2"⟩ ∧
      (delete_accounts ⟨"2.0", [sampleSummary "a1" "e1" 5,
          sampleSummary "a2" "e2" 3], some "a1"⟩
        ["a1"]).current_account_id = some "a2" := by
  obtain ⟨h1, _, h3⟩ := delete_current_pointer_semantics
    ⟨"2.0", [sampleSummary "a1" "e1" 5, sampleSummary "a2" "e2" 3],
      some "a1"⟩ "a1" ["a1"]
  constructor
  · rw [h1 ⟨sampleSummary "a1" "e1" 5, by decide, rfl⟩ rfl]
    rfl
  · rw [h3 (Or.inr ⟨"a1", rfl, by decide⟩)]
    decide

/-- C4 counterexample: with one summary and an empty current pointer,
`delete_accounts []` deletes nothing — the pointer referenced no deleted
id — yet `current_account_id` changes from none to the first summary,
refuting "current_account_id changes only if it referenced a deleted
id". -/
theorem delete_accounts_refills_absent_pointer :
    AccountIndex.current_account_id
        ⟨"2.0", [sampleSummary "a1" "e1" 5], none⟩ = none ∧
      AccountIndex.current_account_id
        (delete_accounts ⟨"2.0", [sampleSummary "a1" "e1" 5], none⟩ []) =
          some "a1" :=
  ⟨rfl, by decide⟩

theorem find_last_by_id_none_iff {l : List AccountSummary} {a : String} :
    find_last_by_id l a = none ↔ ∀ s ∈ l, s.id ≠ a := by
  induction l with
  | nil => simp [find_last_by_id]
  | cons s rest ih =>
    simp only [find_last_by_id]
    cases h : find_last_by_id rest a with
    | some r =>
      constructor
      · intro hc; exact absurd hc (by simp)
      · intro hall
        have hn : find_last_by_id rest a = none :=
          ih.mpr (fun x hx => hall x (List.mem_cons_of_mem _ hx))
        rw [hn] at h
        exact absurd h (by simp)
    | none =>
      by_cases hs : s.id = a
      · rw [if_pos hs]
        constructor
        · intro hc; exact absurd hc (by simp)
        · intro hall; exact absurd hs (hall s (List.mem_cons_self _ _))
      · rw [if_neg hs]
        constructor
        · intro _ x hx
          rcases List.mem_cons.mp hx with rfl | hx'
          · exact hs
          · exact ih.mp h x hx'
        · intro _; rfl

theorem find_last_by_id_some {l : List AccountSummary} {a : String}
    {sa : AccountSummary} (h : find_last_by_id l a = some sa) :
    sa ∈ l ∧ sa.id = a := by
  induction l with
  | nil => exact absurd h (by simp [find_last_by_id])
  | cons s rest ih =>
    simp only [find_last_by_id] at h
    cases hr : find_last_by_id rest a with
    | some r =>
      rw [hr] at h
      obtain rfl : r = sa := Option.some_inj.mp h
      obtain ⟨hm, hid⟩ := ih hr
      exact ⟨List.mem_cons_of_mem _ hm, hid⟩
    | none =>
      rw [hr] at h
      by_cases hs : s.id = a
      · rw [if_pos hs] at h
        obtain rfl : s = sa := Option.some_inj.mp h
        exact ⟨List.mem_cons_self _ _, hs⟩
      · rw [if_neg hs] at h
        exact absurd h (by simp)

theorem find_last_by_id_erase {sa : AccountSummary} {a x : String}
    (hsa : sa.id = a) (hx : x ≠ a) :
    ∀ l : List AccountSummary,
      find_last_by_id (l.erase sa) x = find_last_by_id l x := by
  intro l
  induction l with
  | nil => rfl
  | cons s rest ih =>
    by_cases hs : s = sa
    · subst hs
      rw [List.erase_cons_head]
      show _ = find_last_by_id (s :: rest) x
      simp only [find_last_by_id]
      cases h : find_last_by_id rest x with
      | some r => rfl
      | none =>
        have hne : s.id ≠ x := by rw [hsa]; exact fun he => hx he.symm
        rw [if_neg hne]
    · rw [List.erase_cons_tail (by simp [hs])]
      simp only [find_last_by_id]
      rw [ih]

theorem filter_notmem_cons_erase {sa : AccountSummary} {a : String}
    (rest : List String) (hsa : sa.id = a) :
    ∀ l : List AccountSummary, sa ∈ l →
      (l.map AccountSummary.id).Nodup →
      l.filter (fun s => decide (s.id ∉ a :: rest)) =
        (l.erase sa).filter (fun s => decide (s.id ∉ rest)) := by
  intro l
  induction l with
  | nil => intro hmem _; exact absurd hmem (by simp)
  | cons s t ih =>
    intro hmem hnd
    by_cases hs : s = sa
    · subst hs
      rw [List.erase_cons_head]
      have hdrop : decide (s.id ∉ a :: rest) = false := by
        simp [hsa, List.mem_cons]
      rw [List.filter_cons, hdrop]
      simp only [Bool.false_eq_true, if_false]
      apply List.filter_congr
      intro x hx
      have hxa : x.id ≠ a := by
        intro he
        have hmaps : s.id ∈ t.map AccountSummary.id :=
          List.mem_map.mpr ⟨x, hx, by rw [he, hsa]⟩
        exact (List.nodup_cons.mp hnd).1 hmaps
      simp [List.mem_cons, hxa]
    · have hmemt : sa ∈ t := by
        rcases List.mem_cons.mp hmem with he | hm
        · exact absurd he.symm hs
        · exact hm
      have hsid : s.id ≠ a := by
        intro he
        have hmaps : s.id ∈ t.map AccountSummary.id :=
          List.mem_map.mpr ⟨sa, hmemt, by rw [hsa, he]⟩
        exact (List.nodup_cons.mp hnd).1 hmaps
      rw [List.erase_cons_tail (by simp [hs])]
      rw [List.filter_cons, List.filter_cons]
      have hsame : (decide (s.id ∉ a :: rest)) = (decide (s.id ∉ rest)) := by
        simp [List.mem_cons, hsid]
      rw [hsame, ih hmemt (List.nodup_cons.mp hnd).2]

theorem reorder_perm_aux : ∀ (ids : List String) (l : List AccountSummary),
    (l.map AccountSummary.id).Nodup → ids.Nodup →
    (ids.filterMap (find_last_by_id l) ++
      l.filter (fun s => decide (s.id ∉ ids))).Perm l := by
  intro ids
  induction ids with
  | nil =>
    intro l _ _
    simp
  | cons a rest ih =>
    intro l hnd hids
    obtain ⟨ha, hrest⟩ := List.nodup_cons.mp hids
    cases hfind : find_last_by_id l a with
    | none =>
      have hall : ∀ s ∈ l, s.id ≠ a := find_last_by_id_none_iff.mp hfind
      rw [List.filterMap_cons, hfind]
      have hfilter : l.filter (fun s => decide (s.id ∉ a :: rest)) =
          l.filter (fun s => decide (s.id ∉ rest)) :=
        List.filter_congr (fun x hx => by simp [List.mem_cons, hall x hx])
      rw [hfilter]
      exact ih l hnd hrest
    | some sa =>
      obtain ⟨hmem, hsa⟩ := find_last_by_id_some hfind
      rw [List.filterMap_cons, hfind]
      have hmaps : rest.filterMap (find_last_by_id l) =
          rest.filterMap (find_last_by_id (l.erase sa)) :=
        List.filterMap_congr
          (fun x hx => (find_last_by_id_erase hsa
            (fun he => ha (he ▸ hx)) l).symm)
      have hfilter := filter_notmem_cons_erase rest hsa l hmem hnd
      rw [hmaps, hfilter]
      have hnd' : ((l.erase sa).map AccountSummary.id).Nodup :=
        hnd.sublist ((List.erase_sublist sa l).map AccountSummary.id)
      have hperm := ih (l.erase sa) hnd' hrest
      show List.Perm (sa :: (rest.filterMap (find_last_by_id (l.erase sa)) ++
        (l.erase sa).filter (fun s => decide (s.id ∉ rest)))) l
      exact (hperm.cons sa).trans (List.perm_cons_erase hmem).symm

/-- C9 (amended): for every index whose summaries carry pairwise-distinct
ids and every input list of pairwise-distinct ids, `reorder_accounts`
places the summaries of the input ids that exist in the index first, in
input order, appends the summaries absent from the input in their
pre-existing relative order, ignores input ids not present in the index,
and the resulting list is a permutation of the previous one. -/
theorem reorder_accounts_permutation (index : AccountIndex)
    (ids : List String)
    (hnd : (index.accounts.map AccountSummary.id).Nodup)
    (hids : ids.Nodup) :
    (reorder_accounts index ids).accounts =
      ids.filterMap (find_last_by_id index.accounts) ++
        index.accounts.filter (fun s => decide (s.id ∉ ids)) ∧
      (reorder_accounts index ids).accounts.Perm index.accounts :=
  ⟨rfl, reorder_perm_aux ids index.accounts hnd hids⟩

/-- Witness for the amended C9: moving `a2` to the front of a two-account
index (with the unknown id `zz` ignored) yields a permutation of the
original summaries. -/
theorem reorder_accounts_permutation_witness :
    (reorder_accounts ⟨"2.0", [sampleSummary "a1" "e1" 1,
        sampleSummary "a2" "e2" 2], none⟩ ["a2", "zz"]).accounts.Perm
      [sampleSummary "a1" "e1" 1, sampleSummary "a2" "e2" 2] :=
  (reorder_accounts_permutation
    ⟨"2.0", [sampleSummary "a1" "e1" 1, sampleSummary "a2" "e2" 2], none⟩
    ["a2", "zz"] (by decide) (by decide)).2

/-- C9 counterexample: an index holding two summaries that share the id
`a` — a state reachable because the index file is parsed from arbitrary
JSON without deduplication — loses one of them under
`reorder_accounts ["a"]` (the map keeps only the later duplicate), so the
result is not a permutation of the previous summary list. -/
theorem reorder_loses_duplicate_id :
    ¬ (reorder_accounts ⟨"2.0", [sampleSummary "a" "e1" 1,
        sampleSummary "a" "e2" 2], none⟩ ["a"]).accounts.Perm
      [sampleSummary "a" "e1" 1, sampleSummary "a" "e2" 2] := by
  decide

/-- C5: upserting an existing disabled account with a token whose refresh
token or access token differs from the stored one clears `disabled`,
`disabled_reason` and `disabled_at`, stores the new token and name, and
bumps `last_used`; when neither token component changed, the disabled flag
and its metadata are left as they were (token, name and last-used are still
updated). -/
theorem upsert_clears_disabled_on_token_change (index : AccountIndex)
    (load_detail : String → Option Account) (fresh_id email : String)
    (name : Option String) (token : TokenData) (now : Int)
    (s : AccountSummary) (acc : Account)
    (hfind : index.accounts.find? (fun s => decide (s.email = email)) = some s)
    (hload : load_detail s.id = some acc)
    (hdis : acc.disabled = true) :
    ((token.refresh_token ≠ acc.token.refresh_token ∨
        token.access_token ≠ acc.token.access_token) →
      upsert_account index load_detail fresh_id email name token now =
        .ok ({ acc with
                token := token, name := name, disabled := false,
                disabled_reason := none, disabled_at := none,
                last_used := now },
          { index with
            accounts := set_name_of_first index.accounts s.id name })) ∧
      (token.refresh_token = acc.token.refresh_token ∧
          token.access_token = acc.token.access_token →
        upsert_account index load_detail fresh_id email name token now =
          .ok ({ acc with token := token, name := name, last_used := now },
            { index with
              accounts := set_name_of_first index.accounts s.id name })) := by
  constructor
  · intro hchange
    have hcond : (acc.disabled &&
        (decide (token.refresh_token ≠ acc.token.refresh_token) ||
          decide (token.access_token ≠ acc.token.access_token))) = true := by
      rcases hchange with h | h <;> simp [hdis, h]
    simp only [upsert_account, hfind, hload, hcond, if_true,
      Account.update_last_used]
  · intro ⟨hr, ha⟩
    have hcond : (acc.disabled &&
        (decide (token.refresh_token ≠ acc.token.refresh_token) ||
          decide (token.access_token ≠ acc.token.access_token))) = false := by
      simp [hr, ha]
    simp only [upsert_account, hfind, hload, hcond, Bool.false_eq_true,
      if_false, Account.update_last_used]

/-- Witness for C5: a disabled account whose refresh token changes is
re-enabled with the new token, and one whose token is unchanged stays
disabled. -/
theorem upsert_clears_disabled_on_token_change_witness :
    upsert_account ⟨"2.0", [sampleSummary "a1" "u1@x" 0], none⟩
        (fun i => if i = "a1" then some disabledSampleAccount else none)
        "fresh" "u1@x" (some "New")
        (TokenData.new "at2" "rt2" 0 none none none) 9 =
      .ok (Account.mk "a1" "u1@x" (some "New")
          (TokenData.new "at2" "rt2" 0 none none none)
          false none none false none none none ∅ none [] 0 9,
        ⟨"2.0", [{ sampleSummary "a1" "u1@x" 0 with name := some "New" }],
          none⟩) := by
  have h := (upsert_clears_disabled_on_token_change
    ⟨"2.0", [sampleSummary "a1" "u1@x" 0], none⟩
    (fun i => if i = "a1" then some disabledSampleAccount else none)
    "fresh" "u1@x" (some "New")
    (TokenData.new "at2" "rt2" 0 none none none) 9
    (sampleSummary "a1" "u1@x" 0) disabledSampleAccount
    (by decide) (by decide) rfl).1 (Or.inl (by decide))
  rw [h]
  decide

/-- C10: when the email exists in the index but the detail file is missing
or unreadable, `upsert_account` does not fail: it recreates a fresh account
under the existing summary's id with the given email, name and token, syncs
the name into the index summary, and returns the recreated account. -/
theorem upsert_recreates_missing_detail (index : AccountIndex)
    (load_detail : String → Option Account) (fresh_id email : String)
    (name : Option String) (token : TokenData) (now : Int)
    (s : AccountSummary)
    (hfind : index.accounts.find? (fun s => decide (s.email = email)) = some s)
    (hload : load_detail s.id = none) :
    upsert_account index load_detail fresh_id email name token now =
      .ok ({ Account.new s.id email token now with name := name },
        { index with
          accounts := set_name_of_first index.accounts s.id name }) := by
  simp only [upsert_account, hfind, hload]

/-- Witness for C10: an index entry whose detail file is gone is recreated
from the upsert arguments under the old id. -/
theorem upsert_recreates_missing_detail_witness :
    upsert_account ⟨"2.0", [sampleSummary "a1" "u1@x" 0], some "a1"⟩
        (fun _ => none) "fresh" "u1@x" (some "N")
        (TokenData.new "at3" "rt3" 0 none none none) 4 =
      .ok ({ Account.new "a1" "u1@x"
              (TokenData.new "at3" "rt3" 0 none none none) 4 with
              name := some "N" },
        ⟨"2.0", [{ sampleSummary "a1" "u1@x" 0 with name := some "N" }],
          some "a1"⟩) := by
  have h := upsert_recreates_missing_detail
    ⟨"2.0", [sampleSummary "a1" "u1@x" 0], some "a1"⟩ (fun _ => none)
    "fresh" "u1@x" (some "N") (TokenData.new "at3" "rt3" 0 none none none) 4
    (sampleSummary "a1" "u1@x" 0) (by decide) rfl
  rw [h]
  decide

theorem apply_protection_mem (norm : String → Option String)
    (models : List ModelQuota) (threshold : Int) :
    ∀ (monitored : List String) (P : Finset String) (x : String),
      (x ∈ apply_protection norm models threshold monitored P ↔
        (if x ∈ monitored then
          group_min_percentage norm models x ≤ threshold
        else x ∈ P)) := by
  intro monitored
  induction monitored with
  | nil =>
    intro P x
    simp [apply_protection]
  | cons m ms ih =>
    intro P x
    have hstep : apply_protection norm models threshold (m :: ms) P =
        apply_protection norm models threshold ms
          (if group_min_percentage norm models m ≤ threshold then
            insert m P
          else P.erase m) := by
      simp [apply_protection]
    rw [hstep, ih]
    by_cases hms : x ∈ ms
    · simp [hms, List.mem_cons]
    · by_cases hxm : x = m
      · subst hxm
        by_cases hgm : group_min_percentage norm models x ≤ threshold
        · simp [hms, hgm, List.mem_cons]
        · simp [hms, hgm, List.mem_cons]
      · have hcons : (x ∈ m :: ms) = False := by
          simp [List.mem_cons, hxm, hms]
        by_cases hgm : group_min_percentage norm models m ≤ threshold
        · simp [hms, hcons, hgm, Finset.mem_insert, hxm]
        · simp [hms, hcons, hgm, Finset.mem_erase, hxm]

/-- C1 (amended): for every quota update performed while quota protection
is enabled, the resulting `protected_models` agrees with
`{ m ∈ monitored : group_min(m) ≤ threshold }` on the monitored ids —
where `group_min` starts at 100 and takes the minimum over the fetched
models normalizing to the id (100 when no variant maps to it) — while ids
outside the monitored set keep their previous protection status. -/
theorem update_quota_protection_state (cfg : AppConfig)
    (norm : String → Option String) (account : Account) (quota : QuotaData)
    (hen : cfg.quota_protection.enabled = true) :
    (update_account_quota (some cfg) norm account quota).protected_models =
      account.protected_models.filter
          (fun m => m ∉ cfg.quota_protection.monitored_models) ∪
        (cfg.quota_protection.monitored_models.filter
          (fun m => decide (group_min_percentage norm quota.models m ≤
            cfg.quota_protection.threshold_percentage))).toFinset := by
  have hproj : Account.protected_models
      (update_account_quota (some cfg) norm account quota) =
        apply_protection norm quota.models
          cfg.quota_protection.threshold_percentage
          cfg.quota_protection.monitored_models account.protected_models := by
    simp only [update_account_quota, hen, if_true]
    split <;> rfl
  rw [hproj]
  apply Finset.ext
  intro x
  rw [apply_protection_mem]
  by_cases hmon : x ∈ cfg.quota_protection.monitored_models
  · simp [hmon, Finset.mem_union, Finset.mem_filter, List.mem_toFinset,
      List.mem_filter]
  · simp [hmon, Finset.mem_union, Finset.mem_filter, List.mem_toFinset,
      List.mem_filter]

/-- Witness for the amended C1, replaying the spec's scenario: threshold
10, monitored `gemini`, variants at 8% and 50% — the minimum 8 triggers
protection, and a previously protected unmonitored id survives. -/
theorem update_quota_protection_state_witness :
    (update_account_quota (some ⟨⟨true, 10, ["gemini"]⟩⟩) toy_norm
        { sampleAccount with protected_models := {"stale"} }
        { QuotaData.new with
          models := [⟨"m1", 8⟩, ⟨"m2", 50⟩] }).protected_models =
      ({"stale"} : Finset String).filter (fun m => m ∉ ["gemini"]) ∪
        (["gemini"].filter (fun m => decide
          (group_min_percentage toy_norm [⟨"m1", 8⟩, ⟨"m2", 50⟩] m ≤
            10))).toFinset := by
  exact update_quota_protection_state ⟨⟨true, 10, ["gemini"]⟩⟩ toy_norm
    { sampleAccount with protected_models := {"stale"} }
    { QuotaData.new with models := [⟨"m1", 8⟩, ⟨"m2", 50⟩] } rfl

/-- C1 counterexample: with protection enabled, an empty monitored set and
an empty fetched quota, a previously protected id that is not monitored
remains in `protected_models`, although the claimed equation demands the
empty set — `update_account_quota` never removes ids outside
`monitored_models`. -/
theorem update_quota_keeps_unmonitored_protection :
    (update_account_quota (some ⟨⟨true, 50, []⟩⟩) (fun _ => none)
        { sampleAccount with protected_models := {"x"} }
        QuotaData.new).protected_models = {"x"} ∧
      ¬ ("x" ∈ ([] : List String)) := by
  refine ⟨by decide, by decide⟩

theorem capture_project_id_token_access
    (result : Except AppError (QuotaData × Option String))
    (st : Account × List (String × Option String × TokenData)) :
    (capture_project_id result st).1.token.access_token =
      st.1.token.access_token := by
  cases result with
  | ok v =>
    obtain ⟨q, pid⟩ := v
    dsimp only [capture_project_id]
    split <;> rfl
  | error e => rfl

theorem capture_project_id_upserts_mono
    (result : Except AppError (QuotaData × Option String))
    (st : Account × List (String × Option String × TokenData))
    (x : String × Option String × TokenData) (hx : x ∈ st.2) :
    x ∈ (capture_project_id result st).2 := by
  cases result with
  | ok v =>
    obtain ⟨q, pid⟩ := v
    dsimp only [capture_project_id]
    split
    · exact List.mem_append_left _ hx
    · exact hx
  | error e => exact hx

theorem handle_unauthorized_invalid_grant (env : QuotaEnv) (now : Int)
    (st : Account × List (String × Option String × TokenData)) (e : String)
    (href : env.refresh_access_token = .error e)
    (hinv : contains_sub e "invalid_grant" = true) :
    handle_unauthorized_retry env now st =
      { result := .error (.oauth e)
        account := disable_for_invalid_grant st.1 e now
        upserts := st.2
        saved_disabled := true
        fetch_calls := 1 } := by
  simp only [handle_unauthorized_retry, href, hinv, if_true]

theorem handle_unauthorized_ok (env : QuotaEnv) (now : Int)
    (st : Account × List (String × Option String × TokenData))
    (tres : TokenResponse)
    (href : env.refresh_access_token = .ok tres) :
    (handle_unauthorized_retry env now st).fetch_calls = 2 ∧
      (∃ p ∈ (handle_unauthorized_retry env now st).upserts,
        (p.2.2).access_token = tres.access_token) ∧
      (handle_unauthorized_retry env now st).account.token.access_token =
        tres.access_token ∧
      (∀ m2, env.fetch_quota 1 = .error (.network m2 (some 403)) →
        (handle_unauthorized_retry env now st).result =
          .ok { QuotaData.new with is_forbidden := true }) := by
  refine ⟨?_, ?_, ?_, ?_⟩
  · simp only [handle_unauthorized_retry, href]
  · simp only [handle_unauthorized_retry, href]
    refine ⟨_, capture_project_id_upserts_mono _ _ _
      (List.mem_append_right _ (List.mem_singleton_self _)), ?_⟩
    rfl
  · simp only [handle_unauthorized_retry, href]
    rw [capture_project_id_token_access]
    rfl
  · intro m2 h403
    simp only [handle_unauthorized_retry, href, h403]

/-- C7: whenever the first quota call returns HTTP 401 (the timed token
check having succeeded), `fetch_quota_with_retry` forces a refresh-token
exchange — hard-disabling the account with no retry when the exchange
fails with `invalid_grant` — and otherwise persists the rebuilt token
through an upsert and retries the quota call exactly once; if that single
retry returns HTTP 403, the function returns `Ok` with an empty
`QuotaData` whose `is_forbidden` flag is true instead of an error. -/
theorem fetch_quota_retry_on_401 (env : QuotaEnv) (acc0 : Account)
    (now : Int) (t : TokenData) (m : String)
    (hens : env.ensure_fresh_token = .ok t)
    (h401 : env.fetch_quota 0 = .error (.network m (some 401))) :
    (∀ e, env.refresh_access_token = .error e →
        contains_sub e "invalid_grant" = true →
        (fetch_quota_with_retry env acc0 now).result = .error (.oauth e) ∧
          (fetch_quota_with_retry env acc0 now).account.disabled = true ∧
          (fetch_quota_with_retry env acc0 now).saved_disabled = true ∧
          (fetch_quota_with_retry env acc0 now).fetch_calls = 1) ∧
      (∀ tres, env.refresh_access_token = .ok tres →
        (fetch_quota_with_retry env acc0 now).fetch_calls = 2 ∧
          (∃ p ∈ (fetch_quota_with_retry env acc0 now).upserts,
            (p.2.2).access_token = tres.access_token) ∧
          (fetch_quota_with_retry env acc0 now).account.token.access_token =
            tres.access_token ∧
          (∀ m2, env.fetch_quota 1 = .error (.network m2 (some 403)) →
            (fetch_quota_with_retry env acc0 now).result =
              .ok { QuotaData.new with is_forbidden := true })) := by
  have hout : fetch_quota_with_retry env acc0 now =
      handle_unauthorized_retry env now
        (capture_project_id (.error (.network m (some 401)))
          (supplement_name_stage env (rotation_stage env t acc0))) := by
    simp only [fetch_quota_with_retry, hens, h401]
  constructor
  · intro e href hinv
    rw [hout, handle_unauthorized_invalid_grant env now _ e href hinv]
    exact ⟨rfl, rfl, rfl, rfl⟩
  · intro tres href
    rw [hout]
    exact handle_unauthorized_ok env now _ tres href

/-- Witness for C7 in the concrete environment: exactly two quota calls
are made, the refreshed access token is persisted, and the result is the
empty forbidden quota. -/
theorem fetch_quota_retry_on_401_witness :
    (fetch_quota_with_retry toy_env sampleAccount 5).fetch_calls = 2 ∧
      (∃ p ∈ (fetch_quota_with_retry toy_env sampleAccount 5).upserts,
        (p.2.2).access_token = "at2") ∧
      (fetch_quota_with_retry toy_env sampleAccount 5).result =
        .ok { QuotaData.new with is_forbidden := true } := by
  obtain ⟨h1, h2, _, h4⟩ := (fetch_quota_retry_on_401 toy_env sampleAccount 5
    (TokenData.new "at" "rt" 0 none none none) "unauthorized" rfl rfl).2
    ⟨"at2", 3600⟩ rfl
  exact ⟨h1, h2, h4 "forbidden" rfl⟩

/-- Witness for C6, replaying the spec's scenario of an outdated local
installation (4.1.20) with the remote unreachable: the resolved version is
never below any candidate, evaluated at the local candidate. -/
theorem resolve_version_config_is_max_witness :
    "4.1.20" ∈ KNOWN_STABLE_VERSION ::
        ((some "4.1.20" : Option String).toList ++
          (none : Option String).toList) ∧
      compare_semver (resolve_version_config (some "4.1.20") none).1.version
        "4.1.20" ≠ .lt :=
  ⟨by decide,
    (resolve_version_config_is_max (some "4.1.20") none).2.1 "4.1.20"
      (by decide)⟩
